import Mathlib

/- The Batteries rational-number operations are irreducible by default,
which blocks `decide`-based evaluation of concrete planner runs; restore
kernel-style reducibility for them (soundness is unaffected: the kernel
ignores reducibility attributes). -/
set_option allowUnsafeReducibility true
attribute [semireducible] Rat.add Rat.mul Rat.inv Rat.sub Rat.div Rat.neg
attribute [semireducible] Rat.ofScientific

/- Verification of the Gorky Guide walking-route planner: a shallow embedding
of the selection-and-sequencing core from src/geo_search.py,
src/route_bulder_foot.py and src/route_builder_limit.py.

Modelling conventions:
* Python floats are modelled as exact rationals; the IEEE value
  `float("inf")` (which the planner produces when substituting missing
  matrix entries) is modelled explicitly by the `FVal` type below.
* A duration/cost matrix is a total function on indices; cells carry
  `Option FVal`, where `none` models a Python `None` entry.  The Python code
  only ever reads cells at in-range index pairs, so a total function is an
  equivalent model of the finite list-of-lists.
* External collaborators (Qdrant search, the OSRM distance oracle) are
  inputs: their outputs (ranked rows, duration matrices) are parameters of
  the embedded functions, exactly as the planner consumes them. -/

/-- Model of a Python float value as produced by the route builder: either
`float("inf")` or a finite value, the latter modelled as an exact
rational. -/
inductive FVal where
  | inf : FVal
  | fin : ℚ → FVal
deriving DecidableEq

namespace FVal

/-- Float addition as it occurs in the planner: `inf` absorbs, finite values
add exactly. -/
def add : FVal → FVal → FVal
  | inf, _ => inf
  | _, inf => inf
  | fin p, fin q => fin (p + q)

instance : Add FVal := ⟨add⟩

instance : Zero FVal := ⟨fin 0⟩

/-- Float comparison `a <= b` restricted to the values the planner builds
(no NaN arises: all inputs are finite or `inf`). -/
def ble : FVal → FVal → Bool
  | _, inf => true
  | inf, fin _ => false
  | fin p, fin q => decide (p ≤ q)

/-- Float comparison `a < b` on the same value space. -/
def blt : FVal → FVal → Bool
  | inf, _ => false
  | fin _, inf => true
  | fin p, fin q => decide (p < q)

/-- Models the Python idiom `v or 0.0` applied to a matrix cell: `None`
becomes `0.0`; a float is returned unchanged (Python also maps the float
`0.0` to the literal `0.0`, which is the same value). -/
def orZero (c : Option FVal) : FVal := c.getD (fin 0)

/-- Models `float("inf") if v is None else v` (the nearest-neighbor
selection key). -/
def keyInf (c : Option FVal) : FVal := c.getD inf

/-- Models `(walk_sec * pace_scale) / 60.0`.  On `inf` the result is `inf`,
which is the Python float behaviour for every positive `pace_scale` (the
planner's pace factors are positive). -/
def scaleDiv60 : FVal → ℚ → FVal
  | inf, _ => inf
  | fin q, p => fin (q * p / 60)

instance : AddCommMonoid FVal where
  add_assoc := by
    intro a b c
    cases a with
    | inf => cases b <;> cases c <;> rfl
    | fin p =>
      cases b with
      | inf => cases c <;> rfl
      | fin q =>
        cases c with
        | inf => rfl
        | fin r => exact congrArg fin (add_assoc p q r)
  zero_add := by
    intro a
    cases a with
    | inf => rfl
    | fin p => exact congrArg fin (zero_add p)
  add_zero := by
    intro a
    cases a with
    | inf => rfl
    | fin p => exact congrArg fin (add_zero p)
  add_comm := by
    intro a b
    cases a with
    | inf => cases b <;> rfl
    | fin p =>
      cases b with
      | inf => rfl
      | fin q => exact congrArg fin (add_comm p q)
  nsmul := nsmulRec

end FVal

/-- A duration/cost matrix as consumed by the tour code: a cell is `none`
(Python `None`) or a float value. -/
def Mat : Type := ℕ → ℕ → Option FVal

/-- Sum of consecutive-leg costs `M[p_i][p_{i+1}] or 0.0` along a list of
indices (the accumulation loop of `path_cost` and of `_sum_time_minutes`). -/
def chainCost (M : Mat) : List ℕ → FVal
  | [] => .fin 0
  | [_] => .fin 0
  | a :: b :: t => FVal.orZero (M a b) + chainCost M (b :: t)

/-- Embedding of `path_cost(path, M, roundtrip)` from
src/route_bulder_foot.py: consecutive legs with `or 0.0`, plus the closing
leg when `roundtrip and len(path) > 1`. -/
def path_cost (path : List ℕ) (M : Mat) (roundtrip : Bool) : FVal :=
  chainCost M path +
    (if roundtrip ∧ 1 < path.length
      then FVal.orZero (M (path.getLastD 0) (path.headD 0))
      else .fin 0)

/-- Python's `min(iterable, key=...)`: the first element attaining the
minimal key, folding left with a strict comparison. -/
def argminFrom (key : ℕ → FVal) (cur : ℕ) (l : List ℕ) : ℕ :=
  l.foldl (fun best j => if FVal.blt (key j) (key best) then j else best) cur

/-- The `while unv:` loop of `nearest_neighbor`: repeatedly append the
unvisited index with minimal cost from the current tour end (missing cost
counts as `inf`), removing it from the unvisited pool.  `fuel` is the pool
size, which decreases by one per iteration. -/
def nnAux (M : Mat) : ℕ → List ℕ → List ℕ → List ℕ
  | 0, path, _ => path
  | _ + 1, path, [] => path
  | fuel + 1, path, u :: us =>
      let last := path.getLastD 0
      let nxt := argminFrom (fun j => FVal.keyInf (M last j)) u us
      nnAux M fuel (path ++ [nxt]) ((u :: us).erase nxt)

/-- Embedding of `nearest_neighbor(M, start_idx)` from
src/route_bulder_foot.py over an `n × n` matrix.  The Python unvisited pool
is a set of small ints iterated in ascending order, matching the spec's
lowest-index tie-break. -/
def nearest_neighbor (M : Mat) (n : ℕ) (start_idx : ℕ) : List ℕ :=
  let unv := (List.range n).filter (fun j => j ≠ start_idx)
  nnAux M unv.length [start_idx] unv

/-- `best[i:j] = reversed(best[i:j])`: reverse the slice at positions
`i, ..., j-1`. -/
def reverseSegment (b : List ℕ) (i j : ℕ) : List ℕ :=
  b.take i ++ ((b.drop i).take (j - i)).reverse ++ b.drop j

/-- The tolerance `1e-9` guarding 2-opt against float oscillation. -/
def eps : ℚ := 1 / 1000000000

/-- The index pairs `(i, j)` scanned by one pass of `two_opt` over a tour of
length `L`: `i` in `range(1, max(1, end_i))` with
`end_i = L - (0 if roundtrip else 1) - 1`, and `j` in `range(i+1, L)`
(both subtrahends in the code's second offset are `0`). -/
def pairsFor (L : ℕ) (roundtrip : Bool) : List (ℕ × ℕ) :=
  let end_i := L - (if roundtrip then 0 else 1) - 1
  ((List.range' 1 (max 1 end_i - 1)).map
    (fun i => (List.range' (i + 1) (L - (i + 1))).map (fun j => (i, j)))).flatten

/-- One candidate 2-opt exchange: compare the two boundary edges as they
stand (`cur`) against the reconnected pair (`alt`), both through `or 0`;
reverse the segment when `alt + 1e-9 < cur`. -/
def twoOptStep (M : Mat) (st : List ℕ × Bool) (p : ℕ × ℕ) : List ℕ × Bool :=
  let b := st.1
  let i := p.1
  let j := p.2
  let a := b.getD (i - 1) 0
  let b1 := b.getD i 0
  let c := b.getD (j - 1) 0
  let d := b.getD (j % b.length) 0
  let cur := FVal.orZero (M a b1) + FVal.orZero (M c d)
  let alt := FVal.orZero (M a c) + FVal.orZero (M b1 d)
  if FVal.blt (alt + .fin eps) cur then (reverseSegment b i j, true) else st

/-- One full scan of index pairs (`for i ... for j ...`), threading the
mutating tour and the `improved` flag. -/
def twoOptPass (M : Mat) (roundtrip : Bool) (best : List ℕ) :
    List ℕ × Bool :=
  (pairsFor best.length roundtrip).foldl (twoOptStep M) (best, false)

/-- The `while improved and it < max_iter` loop: run a pass; recurse while
it improved and iterations remain. -/
def twoOptAux (M : Mat) (roundtrip : Bool) : ℕ → List ℕ → List ℕ
  | 0, best => best
  | fuel + 1, best =>
      let p := twoOptPass M roundtrip best
      if p.2 then twoOptAux M roundtrip fuel p.1 else p.1

/-- Embedding of `two_opt(path, M, roundtrip, max_iter)` from
src/route_bulder_foot.py. -/
def two_opt (path : List ℕ) (M : Mat) (roundtrip : Bool) (max_iter : ℕ) :
    List ℕ :=
  twoOptAux M roundtrip max_iter path

/-- Embedding of `_sum_time_minutes` from src/route_builder_limit.py:
walking seconds over consecutive legs (`or 0.0`), plus the closing leg if
`roundtrip`; scaled by `pace_scale` and converted to minutes; plus
`max(0, dwell)` minutes for the nodes at positions `0 .. len(order)-2`.
Out-of-range dwell indexing (a caller contract violation in Python) reads
as `0`. -/
def _sum_time_minutes (order : List ℕ) (durations_sec : Mat)
    (roundtrip : Bool) (pace_scale : ℚ)
    (dwell_minutes_per_node : List ℚ) : FVal :=
  if order.length < 2 then .fin 0 else
  let walk0 := ((List.range (order.length - 1)).map
      (fun i => FVal.orZero (durations_sec (order.getD i 0)
        (order.getD (i + 1) 0)))).sum
  let walk_sec := if roundtrip
    then walk0 + FVal.orZero (durations_sec (order.getLastD 0)
      (order.headD 0))
    else walk0
  let stop_min := ((List.range (order.length - 1)).map
      (fun i => max 0 (dwell_minutes_per_node.getD (order.getD i 0) 0))).sum
  FVal.scaleDiv60 walk_sec pace_scale + .fin stop_min

/-- Embedding of `_make_key` from src/geo_search.py.  The Python function
returns the string `f"id:{sid}"` when a persistent id is present, else
`f"title:{t}|lat:{lat}|lon:{lon}"` with the title stripped; the two shapes
never collide and the second is injective in its three components (float
reprs contain no `|`), so keys are modelled as this inductive. -/
inductive StableKey where
  | ofId : ℤ → StableKey
  | ofTitleLoc : String → Option ℚ → Option ℚ → StableKey
deriving DecidableEq

/-- `_make_key(pl)` on a payload carrying `src_id`, `title` and a location
dict with `lat`/`lon`. -/
def _make_key (src_id : Option ℤ) (title : Option String)
    (lat lon : Option ℚ) : StableKey :=
  match src_id with
  | some sid => .ofId sid
  | none => .ofTitleLoc ((title.getD "").trim) lat lon

/-- A ranked candidate row as built by `semantic_proximity_rerank` /
`semantic_topk`: the fields the planner reads (identity, title and
coordinates; score fields are not consumed by the planning logic). -/
structure Row where
  src_id : Option ℤ
  title : Option String
  lat : ℚ
  lon : ℚ
deriving DecidableEq

/-- The key dict the planner passes to `_make_key` for a row. -/
def keyOf (r : Row) : StableKey :=
  _make_key r.src_id r.title (some r.lat) (some r.lon)

/-- Embedding of `make_stable_keys` from src/geo_search.py. -/
def make_stable_keys (items : List Row) : List StableKey := items.map keyOf

/-- Embedding of `_promote_required` from src/route_builder_limit.py: one
pass over `rows` appending each row to `a` when its key is in the required
set, else to `b`; the result is `a + b`. -/
def _promote_required (rows : List Row)
    (required_keys : List StableKey) : List Row :=
  let ab := rows.foldl
    (fun (ab : List Row × List Row) r =>
      if keyOf r ∈ required_keys then (ab.1 ++ [r], ab.2)
      else (ab.1, ab.2 ++ [r]))
    ([], [])
  ab.1 ++ ab.2

/-- The dwell list built inside the feasibility loop for candidate-set size
`n`: `[0.0] + [15.0]*min(5, n) + [3.0]*(n - min(5, n))`. -/
def posDwell (n : ℕ) : List ℚ :=
  0 :: (List.replicate (min 5 n) 15 ++ List.replicate (n - min 5 n) 3)

/-- The submatrix conversion in the feasibility loop:
`durations_full[i][j] if durations_full[i][j] is not None else inf`.
The OSRM oracle output is modelled as a total function to optional finite
durations. -/
def convMat (durations_full : ℕ → ℕ → Option ℚ) : Mat :=
  fun i j => some ((durations_full i j).elim FVal.inf FVal.fin)

/-- The loop body's estimate for candidate-set size `n`: nearest-neighbor
over the `n+1`-point matrix, 2-opt with `max_iter=1200`, then
`_sum_time_minutes` with the positional dwell list. -/
def sizeEstimate (M : Mat) (roundtrip : Bool) (pace_scale : ℚ) (n : ℕ) :
    FVal :=
  _sum_time_minutes (two_opt (nearest_neighbor M (n + 1) 0) M roundtrip 1200)
    M roundtrip pace_scale (posDwell n)

/-- The feasibility search `for n in range(1, len(all_points))` with state
`(best_n, best_order_local, best_time_min)`: record a feasible `n` and
continue, break at the first infeasible `n`. -/
def feasGo (M : Mat) (roundtrip : Bool) (pace_scale : ℚ) (budget60 : ℚ) :
    ℕ → ℕ → ℕ × Option (List ℕ) × FVal → ℕ × Option (List ℕ) × FVal
  | _, 0, st => st
  | n, rem + 1, st =>
      let order := two_opt (nearest_neighbor M (n + 1) 0) M roundtrip 1200
      let t := _sum_time_minutes order M roundtrip pace_scale (posDwell n)
      if FVal.ble t (.fin budget60) then
        feasGo M roundtrip pace_scale budget60 (n + 1) rem (n, some order, t)
      else st

/-- The planner's terminal output, one constructor per reason code; carries
the fields of the returned dict that the planning logic itself computes
(the map/legs fields produced by the external rendering collaborator are
outside the core). -/
inductive PlanOut where
  | noCandidates (main_semantic : List Row)
  | budgetTooSmall (estimated_minutes : FVal) (main_semantic : List Row)
  | okUnderBudget (selected_poi : List Row) (budget_hours : ℚ)
      (estimated_minutes_fast : FVal) (node_roles : List String)
      (fixed_order : List ℕ) (main_semantic : List Row)
      (main_semantic_not_in_route : List Row)
deriving DecidableEq

/-- The `reason` field of the returned dict. -/
def PlanOut.reason : PlanOut → String
  | .noCandidates _ => "no_candidates"
  | .budgetTooSmall _ _ => "time_budget_too_small"
  | .okUnderBudget _ _ _ _ _ _ _ => "ok_under_budget"

/-- The `estimated_minutes` field (present on the `time_budget_too_small`
dict; junk `0` on the others, which do not carry it). -/
def PlanOut.estimated_minutes : PlanOut → FVal
  | .budgetTooSmall e _ => e
  | _ => .fin 0

/-- The `estimated_minutes_fast` field (present on the `ok_under_budget`
dict; junk `0` on the others, which do not carry it). -/
def PlanOut.estimated_minutes_fast : PlanOut → FVal
  | .okUnderBudget _ _ e _ _ _ _ => e
  | _ => .fin 0

/-- The `node_roles` field (present on the `ok_under_budget` dict). -/
def PlanOut.node_roles : PlanOut → List String
  | .okUnderBudget _ _ _ roles _ _ _ => roles
  | _ => []

/-- The `selected_poi` field. -/
def PlanOut.selected_poi : PlanOut → List Row
  | .okUnderBudget sel _ _ _ _ _ _ => sel
  | _ => []

/-- Steps 2-3 of the planner (src/route_builder_limit.py lines 134-148):
collect the keys of shortlist items within `pin_radius_km` of the user
(`_haversine_km` always returns a float, so the code's `d is not None`
guard is vacuous), promote them in the blended list when any were found,
then optionally truncate to `max_pois`. -/
def planRows (hav : ℚ → ℚ → ℚ → ℚ → ℚ) (main_semantic rows : List Row)
    (user_lat user_lon : ℚ) (pin_radius_km : ℚ)
    (max_pois : Option ℕ) : List Row :=
  let promoted_keys := (main_semantic.filter
      (fun ms => hav user_lat user_lon ms.lat ms.lon ≤ pin_radius_km)).map
    keyOf
  let rows1 := if promoted_keys = [] then rows
    else _promote_required rows promoted_keys
  match max_pois with
  | some m => rows1.take m
  | none => rows1

/-- The `ok_under_budget` result assembly (src/route_builder_limit.py lines
192-246): select the first `best_n` rows, derive node roles by membership
of each selected row's stable key in the semantic-shortlist keys, and
report the shortlist items that did not make the selection. -/
def planOk (main_semantic rows2 : List Row) (time_budget_hours : ℚ)
    (res : ℕ × Option (List ℕ) × FVal) : PlanOut :=
  let selected_rows := rows2.take res.1
  let selected_keys := selected_rows.map keyOf
  let node_roles := "start" :: selected_rows.map
      (fun r => if keyOf r ∈ make_stable_keys main_semantic
        then "main" else "additional")
  .okUnderBudget selected_rows time_budget_hours res.2.2 node_roles
    (res.2.1.getD []) main_semantic
    (main_semantic.filter (fun ms => ¬ keyOf ms ∈ selected_keys))

/-- Embedding of `plan_route_under_budget` from src/route_builder_limit.py.
External collaborators appear as inputs: `main_semantic` is the
`semantic_topk` shortlist, `rows` the `semantic_proximity_rerank` output,
`durations_full` the OSRM duration matrix for `[start] + pois`.  `hav` is
the float value computed by `_haversine_km` (a transcendental whose float
result is abstracted as an oracle parameter; the planner consumes it only
through the `<= pin_radius_km` comparison — the exact-real formula is
`_haversine_km` below).  Rendering by `build_walking_route` is external and
contributes no planning fields. -/
def plan_route_under_budget
    (hav : ℚ → ℚ → ℚ → ℚ → ℚ)
    (main_semantic rows : List Row)
    (durations_full : ℕ → ℕ → Option ℚ)
    (user_lat user_lon : ℚ)
    (time_budget_hours : ℚ)
    (roundtrip : Bool)
    (pace_scale : ℚ)
    (max_pois : Option ℕ)
    (pin_radius_km : ℚ) : PlanOut :=
  if rows = [] then .noCandidates main_semantic
  else
    let rows2 := planRows hav main_semantic rows user_lat user_lon
      pin_radius_km max_pois
    let res := feasGo (convMat durations_full) roundtrip pace_scale
      (time_budget_hours * 60) 1 rows2.length (0, none, FVal.inf)
    if res.1 = 0 then .budgetTooSmall res.2.2 main_semantic
    else planOk main_semantic rows2 time_budget_hours res

/-- Embedding of `_haversine_km` from src/geo_search.py over the reals
(Earth radius 6371.0088 km, `math.radians x = x * pi / 180`). -/
noncomputable def _haversine_km (lat1 lon1 lat2 lon2 : ℝ) : ℝ :=
  let R : ℝ := 6371.0088
  let p1 := lat1 * Real.pi / 180
  let p2 := lat2 * Real.pi / 180
  let dphi := (lat2 - lat1) * Real.pi / 180
  let dlmb := (lon2 - lon1) * Real.pi / 180
  let a := Real.sin (dphi / 2) ^ 2 +
    Real.cos p1 * Real.cos p2 * Real.sin (dlmb / 2) ^ 2
  2 * R * Real.arcsin (Real.sqrt a)

/-- The clamped semantic score of `semantic_proximity_rerank`:
`sem01 = (cos + 1)/2`, then `if sem01 < 0: 0`, then `if sem01 > 1: 1`. -/
noncomputable def sem01 (cos_score : ℝ) : ℝ :=
  let s := (cos_score + 1) / 2
  let s1 := if s < 0 then 0 else s
  if s1 > 1 then 1 else s1

/-- The geographic score of `semantic_proximity_rerank`:
`exp(-d_km / max(geo_tau_km, 1e-6))`, floored at `min_geo_weight` only when
that weight is positive. -/
noncomputable def geo_score (d_km geo_tau_km min_geo_weight : ℝ) : ℝ :=
  let geo := Real.exp (-d_km / max geo_tau_km (1 / 1000000))
  if min_geo_weight > 0 then max min_geo_weight geo else geo

/-- The blended score: `final = alpha * sem01 + (1.0 - alpha) * geo`. -/
noncomputable def final_score (alpha s geo : ℝ) : ℝ :=
  alpha * s + (1 - alpha) * geo

/-- The spec's travel-time term: sum of consecutive-leg travel seconds along
the tour, plus the closing leg if roundtrip. -/
def specTravelSeconds (order : List ℕ) (durations : Mat)
    (roundtrip : Bool) : FVal :=
  ((order.zip order.tail).map (fun p => FVal.orZero (durations p.1 p.2))).sum +
    (if roundtrip
      then FVal.orZero (durations (order.getLastD 0) (order.headD 0))
      else .fin 0)

/-- Dwell minutes summed over every visited node except the final stop of
the visiting order. -/
def dwellExclLast (order : List ℕ) (dwell : List ℚ) : ℚ :=
  (order.dropLast.map (fun x => max 0 (dwell.getD x 0))).sum

/-- Dwell minutes summed over every visited node, the final stop
included. -/
def dwellAllNodes (order : List ℕ) (dwell : List ℚ) : ℚ :=
  (order.map (fun x => max 0 (dwell.getD x 0))).sum

/-- The spec's estimate with the final stop's dwell excluded: travel seconds
scaled by the pace and converted to minutes, plus dwell for every visited
node except the last of the visiting order. -/
def specTimeExclLast (order : List ℕ) (durations : Mat) (roundtrip : Bool)
    (pace_scale : ℚ) (dwell : List ℚ) : FVal :=
  FVal.scaleDiv60 (specTravelSeconds order durations roundtrip) pace_scale +
    .fin (dwellExclLast order dwell)

/-- The estimate read off the spec sentence "the very last stop of a
non-round-trip tour still receives its dwell time": dwell counted for every
visited node, the final stop included. -/
def specTimeInclLast (order : List ℕ) (durations : Mat) (roundtrip : Bool)
    (pace_scale : ℚ) (dwell : List ℚ) : FVal :=
  FVal.scaleDiv60 (specTravelSeconds order durations roundtrip) pace_scale +
    .fin (dwellAllNodes order dwell)

/-- A matrix with every missing (`None`) cell replaced by `inf`. -/
def liftMissingInf (M : Mat) : Mat := fun i j => some (FVal.keyInf (M i j))

/-- A matrix with every missing (`None`) cell replaced by the float `0.0`. -/
def liftMissingZero (M : Mat) : Mat := fun i j => some (FVal.orZero (M i j))

/-- Symmetry of a cost matrix as seen through `or 0`: the effective cost of
each directed edge equals that of its reverse. -/
def SymMat (M : Mat) : Prop :=
  ∀ i j, FVal.orZero (M i j) = FVal.orZero (M j i)

/-- The positional role list the spec assigns for candidate-set size `n`:
start, then `min(5, n)` mains, then additionals. -/
def posRoles (n : ℕ) : List String :=
  "start" :: (List.replicate (min 5 n) "main" ++
    List.replicate (n - min 5 n) "additional")

/-- Concrete asymmetric 4x4 cost matrix (seconds): on it nearest-neighbor
returns `[0, 1, 2, 3]` and the 2-opt boundary-edge test accepts a reversal
whose interior edge `2 -> 1` is far costlier than `1 -> 2`. -/
def M4 : Mat := fun i j =>
  some (.fin (
    if i = 0 ∧ j = 1 then 1 else
    if i = 0 ∧ j = 2 then 5 else
    if i = 0 ∧ j = 3 then 6 else
    if i = 1 ∧ j = 2 then 1 else
    if i = 1 ∧ j = 3 then 2 else
    if i = 2 ∧ j = 1 then 100 else
    if i = 2 ∧ j = 3 then 10 else
    if i = j then 0 else 50))

/-- Concrete symmetric matrix (cost of `{i, j}` depends only on the
unordered pair). -/
def MsymW : Mat := fun i j =>
  some (.fin ((min i j + 2 * max i j : ℕ) : ℚ))

/-- A matrix whose entries are all missing. -/
def MissM : Mat := fun _ _ => none

/-- A 2x2 finite duration matrix used by counterexample evaluations:
60 seconds between the two distinct points. -/
def Mc2 : Mat := fun i j => some (.fin (if i = j then 0 else 60))

/-- Distance-oracle table: 0 on the diagonal, 60 seconds otherwise. -/
def dur60 : ℕ → ℕ → Option ℚ := fun i j => if i = j then some 0 else some 60

/-- Distance-oracle table: 0 on the diagonal, 600 seconds otherwise. -/
def dur600 : ℕ → ℕ → Option ℚ := fun i j => if i = j then some 0 else some 600

/-- A haversine-oracle stub that reports every candidate at distance 0. -/
def hav0 : ℚ → ℚ → ℚ → ℚ → ℚ := fun _ _ _ _ => 0

/-- A blended-list candidate with persistent id 1. -/
def rowA : Row := ⟨some 1, some "A", 0, 0⟩

/-- A semantic-shortlist candidate with persistent id 99 (appearing in no
blended list). -/
def rowM99 : Row := ⟨some 99, some "M", 0, 0⟩

theorem FVal.add_fin (p q : ℚ) : FVal.fin p + FVal.fin q = FVal.fin (p + q) :=
  rfl

theorem FVal.add_inf_left (a : FVal) : FVal.inf + a = FVal.inf := by
  cases a <;> rfl

theorem FVal.add_inf_right (a : FVal) : a + FVal.inf = FVal.inf := by
  cases a <;> rfl

theorem FVal.zero_def : (0 : FVal) = FVal.fin 0 := rfl

theorem FVal.ble_refl (a : FVal) : FVal.ble a a = true := by
  cases a <;> simp [FVal.ble]

theorem FVal.ble_trans {a b c : FVal} (h1 : FVal.ble a b = true)
    (h2 : FVal.ble b c = true) : FVal.ble a c = true := by
  cases a <;> cases b <;> cases c <;> simp_all [FVal.ble]
  exact le_trans h1 h2

theorem FVal.blt_ble {a b : FVal} (h : FVal.blt a b = true) :
    FVal.ble a b = true := by
  cases a <;> cases b <;> simp_all [FVal.blt, FVal.ble]
  exact le_of_lt h

theorem FVal.ble_add_left {a b : FVal} (c : FVal) (h : FVal.ble a b = true) :
    FVal.ble (c + a) (c + b) = true := by
  cases a <;> cases b <;> cases c <;>
    simp_all [FVal.ble, FVal.add_inf_left, FVal.add_inf_right, FVal.add_fin]

theorem FVal.ble_add_right {a b : FVal} (c : FVal)
    (h : FVal.ble a b = true) : FVal.ble (a + c) (b + c) = true := by
  cases a <;> cases b <;> cases c <;>
    simp_all [FVal.ble, FVal.add_inf_left, FVal.add_inf_right, FVal.add_fin]

theorem FVal.ble_add_fin_nonneg {a : FVal} {e : ℚ} (he : 0 ≤ e) :
    FVal.ble a (a + FVal.fin e) = true := by
  cases a <;> simp [FVal.ble, FVal.add_inf_left, FVal.add_fin]
  linarith

theorem promote_foldl (req : List StableKey) :
    ∀ (rows a b : List Row),
      rows.foldl
        (fun (ab : List Row × List Row) r =>
          if keyOf r ∈ req then (ab.1 ++ [r], ab.2) else (ab.1, ab.2 ++ [r]))
        (a, b)
      = (a ++ rows.filter (fun r => decide (keyOf r ∈ req)),
         b ++ rows.filter (fun r => decide (keyOf r ∉ req))) := by
  intro rows
  induction rows with
  | nil => intro a b; simp
  | cons r t ih =>
    intro a b
    by_cases h : keyOf r ∈ req
    · simp only [List.foldl_cons, if_pos h, ih, List.filter_cons]
      simp [h, List.append_assoc]
    · simp only [List.foldl_cons, if_neg h, ih, List.filter_cons]
      simp [h, List.append_assoc]

theorem promote_eq_filters (rows : List Row) (req : List StableKey) :
    _promote_required rows req
      = rows.filter (fun r => decide (keyOf r ∈ req))
        ++ rows.filter (fun r => decide (keyOf r ∉ req)) := by
  unfold _promote_required
  rw [promote_foldl]
  simp

/-- C7: promotion is a stable partition of the blended list — the promoted
rows come first in their original relative order, then the rest in their
original relative order, the output is a permutation of the input — and
promoting again changes nothing (idempotence). -/
theorem promote_required_stable_partition (rows : List Row)
    (req : List StableKey) :
    _promote_required rows req
      = rows.filter (fun r => decide (keyOf r ∈ req))
        ++ rows.filter (fun r => decide (keyOf r ∉ req))
    ∧ List.Perm (_promote_required rows req) rows
    ∧ _promote_required (_promote_required rows req) req
      = _promote_required rows req := by
  refine ⟨promote_eq_filters rows req, ?_, ?_⟩
  · rw [promote_eq_filters]
    have h := List.filter_append_perm
      (fun r => decide (keyOf r ∈ req)) rows
    simpa [decide_not] using h
  · rw [promote_eq_filters rows req, promote_eq_filters,
      List.filter_append, List.filter_append,
      List.filter_filter, List.filter_filter,
      List.filter_filter, List.filter_filter]
    have h1 : ∀ l : List Row,
        l.filter (fun a => decide (keyOf a ∉ req) && decide (keyOf a ∈ req))
          = [] := by
      intro l
      induction l with
      | nil => rfl
      | cons x t ih =>
        by_cases hx : keyOf x ∈ req <;> simp [List.filter_cons, hx, ih]
    have h2 : ∀ l : List Row,
        l.filter (fun a => decide (keyOf a ∈ req) && decide (keyOf a ∈ req))
          = l.filter (fun a => decide (keyOf a ∈ req)) := by
      intro l; simp
    have h3 : ∀ l : List Row,
        l.filter (fun a => decide (keyOf a ∈ req) && decide (keyOf a ∉ req))
          = [] := by
      intro l
      induction l with
      | nil => rfl
      | cons x t ih =>
        by_cases hx : keyOf x ∈ req <;> simp [List.filter_cons, hx, ih]
    have h4 : ∀ l : List Row,
        l.filter (fun a => decide (keyOf a ∉ req) && decide (keyOf a ∉ req))
          = l.filter (fun a => decide (keyOf a ∉ req)) := by
      intro l; simp
    rw [h1, h2, h3, h4]
    simp

theorem range_map_pairs {β : Type} (f : ℕ → ℕ → β) :
    ∀ l : List ℕ,
      (List.range (l.length - 1)).map
        (fun i => f (l.getD i 0) (l.getD (i + 1) 0))
      = (l.zip l.tail).map (fun p => f p.1 p.2)
  | [] => by simp
  | [a] => by simp
  | a :: b :: t => by
    have ih := range_map_pairs f (b :: t)
    have hlen : (a :: b :: t).length - 1 = (b :: t).length - 1 + 1 := by
      simp
    rw [hlen, List.range_succ_eq_map, List.map_cons, List.map_map]
    have harg :
        ((fun i => f ((a :: b :: t).getD i 0) ((a :: b :: t).getD (i + 1) 0))
            ∘ Nat.succ)
          = fun i => f ((b :: t).getD i 0) ((b :: t).getD (i + 1) 0) := by
      funext i
      simp [Function.comp, List.getD_cons_succ]
    rw [harg, ih]
    simp [List.getD_cons_zero, List.getD_cons_succ]

theorem range_map_dropLast {β : Type} (g : ℕ → β) :
    ∀ l : List ℕ,
      (List.range (l.length - 1)).map (fun i => g (l.getD i 0))
      = l.dropLast.map g
  | [] => by simp
  | [a] => by simp
  | a :: b :: t => by
    have ih := range_map_dropLast g (b :: t)
    have hlen : (a :: b :: t).length - 1 = (b :: t).length - 1 + 1 := by
      simp
    rw [hlen, List.range_succ_eq_map, List.map_cons, List.map_map]
    have harg : ((fun i => g ((a :: b :: t).getD i 0)) ∘ Nat.succ)
        = fun i => g ((b :: t).getD i 0) := by
      funext i
      simp [Function.comp, List.getD_cons_succ]
    rw [harg, ih]
    simp [List.getD_cons_zero]

theorem add_fin_zero (x : FVal) : x + FVal.fin 0 = x := by
  rw [← FVal.zero_def, add_zero]

theorem sum_time_eq_excl_last (order : List ℕ) (M : Mat) (rt : Bool)
    (pace : ℚ) (dwell : List ℚ) (h : 2 ≤ order.length) :
    _sum_time_minutes order M rt pace dwell
      = specTimeExclLast order M rt pace dwell := by
  unfold _sum_time_minutes specTimeExclLast specTravelSeconds dwellExclLast
  rw [if_neg (by omega)]
  rw [range_map_pairs (fun x y => FVal.orZero (M x y)) order,
    range_map_dropLast (fun x => max 0 (dwell.getD x 0)) order]
  cases rt with
  | false => simp [add_fin_zero]
  | true => simp

/-- C3 (amended): the time estimate equals the consecutive-leg travel
seconds (plus the closing leg if roundtrip) scaled by the pace and
converted to minutes, plus the dwell minutes of every visited node except
the last of the visiting order — the final stop of a one-way tour does NOT
receive its dwell time. -/
theorem sum_time_minutes_spec (order : List ℕ) (M : Mat) (rt : Bool)
    (pace : ℚ) (dwell : List ℚ) (h : 2 ≤ order.length) :
    _sum_time_minutes order M rt pace dwell
      = specTimeExclLast order M rt pace dwell :=
  sum_time_eq_excl_last order M rt pace dwell h

theorem sum_time_minutes_spec_witness :
    2 ≤ ([0, 1] : List ℕ).length
    ∧ _sum_time_minutes [0, 1] Mc2 false 1 [5, 7]
        = specTimeExclLast [0, 1] Mc2 false 1 [5, 7] :=
  ⟨by decide, sum_time_minutes_spec [0, 1] Mc2 false 1 [5, 7] (by decide)⟩

/-- C3, claim as stated is false: on the one-way tour `[0, 1]` with dwell
list `[5, 7]`, 60-second leg and pace 1, the code returns 6 minutes (1
travel + 5 dwell at the start node), not the 13 minutes that "the very
last stop of a non-round-trip tour still receives its dwell time" would
give. -/
theorem sum_time_incl_last_refuted :
    _sum_time_minutes [0, 1] Mc2 false 1 [5, 7] = FVal.fin 6
    ∧ specTimeInclLast [0, 1] Mc2 false 1 [5, 7] = FVal.fin 13
    ∧ ¬ _sum_time_minutes [0, 1] Mc2 false 1 [5, 7]
        = specTimeInclLast [0, 1] Mc2 false 1 [5, 7] := by
  refine ⟨by decide, by decide, by decide⟩

/-- C10: on a roundtrip tour the estimator adds the closing-leg travel time
back to the start, but sums dwell minutes only over positions
`0 .. len(order) - 2`: the dwell of the last visited node before returning
to the start is always excluded. -/
theorem roundtrip_excludes_last_dwell (order : List ℕ) (M : Mat)
    (pace : ℚ) (dwell : List ℚ) (h : 2 ≤ order.length) :
    _sum_time_minutes order M true pace dwell
      = FVal.scaleDiv60
          (((order.zip order.tail).map
              (fun p => FVal.orZero (M p.1 p.2))).sum
            + FVal.orZero (M (order.getLastD 0) (order.headD 0))) pace
        + .fin ((order.dropLast.map
            (fun x => max 0 (dwell.getD x 0))).sum) := by
  have h1 := sum_time_eq_excl_last order M true pace dwell h
  rw [h1]
  unfold specTimeExclLast specTravelSeconds dwellExclLast
  simp

theorem roundtrip_excludes_last_dwell_witness :
    2 ≤ ([0, 1] : List ℕ).length
    ∧ _sum_time_minutes [0, 1] Mc2 true 1 [5, 7]
        = FVal.scaleDiv60
            ((([0, 1].zip [0, 1].tail : List (ℕ × ℕ)).map
                (fun p => FVal.orZero (Mc2 p.1 p.2))).sum
              + FVal.orZero (Mc2 (([0, 1] : List ℕ).getLastD 0)
                  (([0, 1] : List ℕ).headD 0))) 1
          + .fin ((([0, 1] : List ℕ).dropLast.map
              (fun x => max 0 (([5, 7] : List ℚ).getD x 0))).sum) :=
  ⟨by decide, roundtrip_excludes_last_dwell [0, 1] Mc2 1 [5, 7] (by decide)⟩

theorem keyInf_liftInf (M : Mat) (i j : ℕ) :
    FVal.keyInf (liftMissingInf M i j) = FVal.keyInf (M i j) := rfl

theorem orZero_liftZero (M : Mat) (i j : ℕ) :
    FVal.orZero (liftMissingZero M i j) = FVal.orZero (M i j) := rfl

theorem nnAux_congr (M N : Mat)
    (h : ∀ i j, FVal.keyInf (M i j) = FVal.keyInf (N i j)) :
    ∀ (fuel : ℕ) (path unv : List ℕ),
      nnAux M fuel path unv = nnAux N fuel path unv := by
  intro fuel
  induction fuel with
  | zero => intro path unv; rfl
  | succ f ih =>
    intro path unv
    cases unv with
    | nil => rfl
    | cons u us =>
      show nnAux M f _ _ = nnAux N f _ _
      have hkey : (fun j => FVal.keyInf (M (path.getLastD 0) j))
          = fun j => FVal.keyInf (N (path.getLastD 0) j) := by
        funext j; exact h _ j
      rw [hkey]
      exact ih _ _

theorem chainCost_congr (M N : Mat)
    (h : ∀ i j, FVal.orZero (M i j) = FVal.orZero (N i j)) :
    ∀ l : List ℕ, chainCost M l = chainCost N l
  | [] => rfl
  | [_] => rfl
  | a :: b :: t => by
    show FVal.orZero (M a b) + chainCost M (b :: t)
        = FVal.orZero (N a b) + chainCost N (b :: t)
    rw [h a b, chainCost_congr M N h (b :: t)]

theorem twoOptStep_congr (M N : Mat)
    (h : ∀ i j, FVal.orZero (M i j) = FVal.orZero (N i j)) :
    twoOptStep M = twoOptStep N := by
  funext st p
  simp only [twoOptStep, h]

theorem path_cost_congr (M N : Mat)
    (h : ∀ i j, FVal.orZero (M i j) = FVal.orZero (N i j))
    (p : List ℕ) (rt : Bool) : path_cost p M rt = path_cost p N rt := by
  unfold path_cost
  rw [chainCost_congr M N h p]
  congr 1
  by_cases hc : rt = true ∧ 1 < p.length
  · rw [if_pos hc, if_pos hc, h]
  · rw [if_neg hc, if_neg hc]

theorem twoOptAux_congr (M N : Mat)
    (h : ∀ i j, FVal.orZero (M i j) = FVal.orZero (N i j)) (rt : Bool) :
    ∀ (fuel : ℕ) (best : List ℕ),
      twoOptAux M rt fuel best = twoOptAux N rt fuel best := by
  intro fuel
  induction fuel with
  | zero => intro best; rfl
  | succ f ih =>
    intro best
    show (let p := twoOptPass M rt best;
        if p.2 then twoOptAux M rt f p.1 else p.1)
      = (let p := twoOptPass N rt best;
        if p.2 then twoOptAux N rt f p.1 else p.1)
    have hpass : twoOptPass M rt best = twoOptPass N rt best := by
      unfold twoOptPass
      rw [twoOptStep_congr M N h]
    rw [hpass]
    by_cases hp : (twoOptPass N rt best).2 <;> simp [hp, ih]

theorem sum_time_congr (M N : Mat)
    (h : ∀ i j, FVal.orZero (M i j) = FVal.orZero (N i j))
    (o : List ℕ) (rt : Bool) (pace : ℚ) (dw : List ℚ) :
    _sum_time_minutes o M rt pace dw = _sum_time_minutes o N rt pace dw := by
  unfold _sum_time_minutes
  by_cases hl : o.length < 2
  · simp [hl]
  · simp only [hl, if_false]
    have hmap : (List.range (o.length - 1)).map
        (fun i => FVal.orZero (M (o.getD i 0) (o.getD (i + 1) 0)))
        = (List.range (o.length - 1)).map
          (fun i => FVal.orZero (N (o.getD i 0) (o.getD (i + 1) 0))) := by
      apply List.map_congr_left
      intro x _
      exact h _ _
    rw [hmap, h]

/-- C6 (amended): only the nearest-neighbor construction treats a missing
matrix entry as infinite cost (its selection key is
`inf if v is None else v`); the 2-opt edge comparisons, `path_cost` and
`_sum_time_minutes` read cells through `v or 0.0`, so for them a missing
entry contributes zero — each function is insensitive to replacing missing
entries by `inf` (respectively by `0`). -/
theorem missing_entry_semantics (M : Mat) (n s : ℕ) (p o : List ℕ)
    (rt : Bool) (it : ℕ) (pace : ℚ) (dw : List ℚ) :
    nearest_neighbor M n s = nearest_neighbor (liftMissingInf M) n s
    ∧ two_opt p M rt it = two_opt p (liftMissingZero M) rt it
    ∧ path_cost p M rt = path_cost p (liftMissingZero M) rt
    ∧ _sum_time_minutes o M rt pace dw
        = _sum_time_minutes o (liftMissingZero M) rt pace dw := by
  refine ⟨?_, ?_, ?_, ?_⟩
  · unfold nearest_neighbor
    exact nnAux_congr M (liftMissingInf M) (fun i j => rfl) _ _ _
  · unfold two_opt
    exact twoOptAux_congr M (liftMissingZero M) (fun i j => rfl) rt it p
  · exact path_cost_congr M (liftMissingZero M) (fun i j => rfl) p rt
  · exact sum_time_congr M (liftMissingZero M) (fun i j => rfl) o rt pace dw

/-- C6, claim as stated is false: `path_cost` charges exactly zero (not
infinity) for the tour `[0, 1]` over a matrix whose entries are all
missing. -/
theorem missing_entry_charged_zero :
    path_cost [0, 1] MissM false = FVal.fin 0
    ∧ FVal.fin 0 ≠ FVal.inf := ⟨by decide, by decide⟩

theorem argminFrom_mem (key : ℕ → FVal) :
    ∀ (l : List ℕ) (cur : ℕ), argminFrom key cur l ∈ cur :: l := by
  intro l
  induction l with
  | nil => intro cur; simp [argminFrom]
  | cons j t ih =>
    intro cur
    have hstep : argminFrom key cur (j :: t)
        = argminFrom key
            (if FVal.blt (key j) (key cur) = true then j else cur) t := rfl
    rw [hstep]
    by_cases hb : FVal.blt (key j) (key cur) = true
    · rw [if_pos hb]
      rcases List.mem_cons.mp (ih j) with h | h
      · exact List.mem_cons.mpr (Or.inr (List.mem_cons.mpr (Or.inl h)))
      · exact List.mem_cons.mpr (Or.inr (List.mem_cons.mpr (Or.inr h)))
    · rw [if_neg hb]
      rcases List.mem_cons.mp (ih cur) with h | h
      · exact List.mem_cons.mpr (Or.inl h)
      · exact List.mem_cons.mpr (Or.inr (List.mem_cons.mpr (Or.inr h)))

theorem nnAux_extends (M : Mat) :
    ∀ (fuel : ℕ) (path unv : List ℕ), ∃ t, nnAux M fuel path unv = path ++ t := by
  intro fuel
  induction fuel with
  | zero => intro path unv; exact ⟨[], by simp [nnAux]⟩
  | succ f ih =>
    intro path unv
    cases unv with
    | nil => exact ⟨[], by simp [nnAux]⟩
    | cons u us =>
      have hstep : nnAux M (f + 1) path (u :: us)
          = nnAux M f
              (path ++ [argminFrom
                (fun j => FVal.keyInf (M (path.getLastD 0) j)) u us])
              ((u :: us).erase (argminFrom
                (fun j => FVal.keyInf (M (path.getLastD 0) j)) u us)) := rfl
      obtain ⟨t, ht⟩ := ih
        (path ++ [argminFrom
          (fun j => FVal.keyInf (M (path.getLastD 0) j)) u us])
        ((u :: us).erase (argminFrom
          (fun j => FVal.keyInf (M (path.getLastD 0) j)) u us))
      exact ⟨argminFrom (fun j => FVal.keyInf (M (path.getLastD 0) j)) u us
          :: t, by rw [hstep, ht, List.append_assoc]; rfl⟩

theorem nnAux_perm (M : Mat) :
    ∀ (fuel : ℕ) (path unv : List ℕ), unv.length ≤ fuel →
      List.Perm (nnAux M fuel path unv) (path ++ unv) := by
  intro fuel
  induction fuel with
  | zero =>
    intro path unv h
    have hnil : unv = [] := List.length_eq_zero.mp (Nat.le_zero.mp h)
    subst hnil
    simp [nnAux]
  | succ f ih =>
    intro path unv h
    cases unv with
    | nil => simp [nnAux]
    | cons u us =>
      have hmem : argminFrom
          (fun j => FVal.keyInf (M (path.getLastD 0) j)) u us ∈ u :: us :=
        argminFrom_mem _ us u
      have hstep : nnAux M (f + 1) path (u :: us)
          = nnAux M f
              (path ++ [argminFrom
                (fun j => FVal.keyInf (M (path.getLastD 0) j)) u us])
              ((u :: us).erase (argminFrom
                (fun j => FVal.keyInf (M (path.getLastD 0) j)) u us)) := rfl
      have hlen : ((u :: us).erase (argminFrom
          (fun j => FVal.keyInf (M (path.getLastD 0) j)) u us)).length ≤ f := by
        rw [List.length_erase_of_mem hmem]
        simp only [List.length_cons] at h ⊢
        omega
      have hperm := ih
        (path ++ [argminFrom
          (fun j => FVal.keyInf (M (path.getLastD 0) j)) u us])
        ((u :: us).erase (argminFrom
          (fun j => FVal.keyInf (M (path.getLastD 0) j)) u us)) hlen
      rw [hstep]
      refine hperm.trans ?_
      rw [List.append_assoc]
      apply List.Perm.append_left
      exact (List.perm_cons_erase hmem).symm

theorem range_filter_ne_zero (n : ℕ) (h : 0 < n) :
    0 :: (List.range n).filter (fun j => j ≠ 0) = List.range n := by
  cases n with
  | zero => omega
  | succ m =>
    rw [List.range_succ_eq_map]
    have hall : ((List.range m).map Nat.succ).filter (fun j => decide (j ≠ 0))
        = (List.range m).map Nat.succ := by
      apply List.filter_eq_self.mpr
      intro a ha
      simp only [List.mem_map] at ha
      obtain ⟨x, _, rfl⟩ := ha
      simp
    rw [List.filter_cons]
    simp only [decide_eq_true_eq]
    rw [if_neg (by simp)]
    rw [hall]

theorem nearest_neighbor_head_perm (M : Mat) (n : ℕ) (h : 0 < n) :
    (nearest_neighbor M n 0).head? = some 0
    ∧ List.Perm (nearest_neighbor M n 0) (List.range n) := by
  unfold nearest_neighbor
  constructor
  · obtain ⟨t, ht⟩ := nnAux_extends M
      ((List.range n).filter (fun j => j ≠ 0)).length [0]
      ((List.range n).filter (fun j => j ≠ 0))
    rw [ht]
    rfl
  · have hp := nnAux_perm M
      ((List.range n).filter (fun j => j ≠ 0)).length [0]
      ((List.range n).filter (fun j => j ≠ 0)) (le_refl _)
    refine hp.trans ?_
    have : ([0] : List ℕ) ++ (List.range n).filter (fun j => j ≠ 0)
        = 0 :: (List.range n).filter (fun j => j ≠ 0) := rfl
    rw [this, range_filter_ne_zero n h]

theorem reverseSegment_perm (b : List ℕ) (i j : ℕ) (hij : i ≤ j) :
    List.Perm (reverseSegment b i j) b := by
  unfold reverseSegment
  conv_rhs => rw [← List.take_append_drop i b]
  rw [List.append_assoc]
  apply List.Perm.append_left
  have h2 : (b.drop i).drop (j - i) = b.drop j := by
    rw [List.drop_drop]
    congr 1
    omega
  have hdrop : (b.drop i).take (j - i) ++ b.drop j = b.drop i := by
    rw [← h2, List.take_append_drop]
  conv_rhs => rw [← hdrop]
  exact List.Perm.append_right (b.drop j)
    (List.reverse_perm ((b.drop i).take (j - i)))

theorem reverseSegment_head (b : List ℕ) (i j : ℕ) (hi : 1 ≤ i) :
    (reverseSegment b i j).head? = b.head? := by
  unfold reverseSegment
  cases b with
  | nil => simp
  | cons x bs =>
    obtain ⟨k, rfl⟩ : ∃ k, i = k + 1 := ⟨i - 1, by omega⟩
    rw [List.take_succ_cons]
    rfl

theorem reverseSegment_getLast (b : List ℕ) (i j : ℕ) (hj : j < b.length) :
    (reverseSegment b i j).getLast? = b.getLast? := by
  unfold reverseSegment
  have hne : b.drop j ≠ [] := by
    intro hc
    have hlen := List.length_drop j b
    rw [hc] at hlen
    simp at hlen
    omega
  rw [List.getLast?_append_of_ne_nil _ hne]
  rw [List.getLast?_eq_getElem?, List.getLast?_eq_getElem?,
    List.length_drop, List.getElem?_drop]
  congr 1
  omega

theorem pairsFor_bounds (L : ℕ) (rt : Bool) {q : ℕ × ℕ}
    (hq : q ∈ pairsFor L rt) : 1 ≤ q.1 ∧ q.1 < q.2 ∧ q.2 < L := by
  unfold pairsFor at hq
  simp only [List.mem_flatten, List.mem_map] at hq
  obtain ⟨l, ⟨i, hi, rfl⟩, hql⟩ := hq
  simp only [List.mem_map] at hql
  obtain ⟨j, hj, rfl⟩ := hql
  rw [List.mem_range'_1] at hi hj
  show 1 ≤ i ∧ i < j ∧ j < L
  refine ⟨hi.1, by omega, by omega⟩

theorem twoOptStep_cases (M : Mat) (st : List ℕ × Bool) (q : ℕ × ℕ) :
    twoOptStep M st q = (reverseSegment st.1 q.1 q.2, true)
    ∨ twoOptStep M st q = st := by
  simp only [twoOptStep]
  split
  · exact Or.inl rfl
  · exact Or.inr rfl

theorem twoOptFold_inv (M : Mat) (L : ℕ) :
    ∀ (ps : List (ℕ × ℕ)) (b : List ℕ) (fl : Bool),
      (∀ q ∈ ps, 1 ≤ q.1 ∧ q.1 < q.2 ∧ q.2 < L) → b.length = L →
      List.Perm (ps.foldl (twoOptStep M) (b, fl)).1 b
      ∧ (ps.foldl (twoOptStep M) (b, fl)).1.head? = b.head?
      ∧ (ps.foldl (twoOptStep M) (b, fl)).1.getLast? = b.getLast? := by
  intro ps
  induction ps with
  | nil => intro b fl _ _; exact ⟨List.Perm.refl _, rfl, rfl⟩
  | cons q qs ih =>
    intro b fl hq hlen
    have hqb := hq q (List.mem_cons_self q qs)
    have hfold : (q :: qs).foldl (twoOptStep M) (b, fl)
        = qs.foldl (twoOptStep M) (twoOptStep M (b, fl) q) := rfl
    rw [hfold]
    rcases twoOptStep_cases M (b, fl) q with hst | hst <;> rw [hst]
    · have hij : q.1 ≤ q.2 := le_of_lt hqb.2.1
      have hperm := reverseSegment_perm b q.1 q.2 hij
      have hlen2 : (reverseSegment b q.1 q.2).length = L := by
        rw [hperm.length_eq, hlen]
      have hrest := ih (reverseSegment b q.1 q.2) true
        (fun p hp => hq p (List.mem_cons_of_mem q hp)) hlen2
      exact ⟨hrest.1.trans hperm,
        hrest.2.1.trans (reverseSegment_head b q.1 q.2 hqb.1),
        hrest.2.2.trans (reverseSegment_getLast b q.1 q.2
          (by rw [hlen]; exact hqb.2.2))⟩
    · exact ih b fl (fun p hp => hq p (List.mem_cons_of_mem q hp)) hlen

theorem twoOptPass_inv (M : Mat) (rt : Bool) (b : List ℕ) :
    List.Perm (twoOptPass M rt b).1 b
    ∧ (twoOptPass M rt b).1.head? = b.head?
    ∧ (twoOptPass M rt b).1.getLast? = b.getLast? := by
  unfold twoOptPass
  exact twoOptFold_inv M b.length (pairsFor b.length rt) b false
    (fun q hq => pairsFor_bounds b.length rt hq) rfl

theorem twoOptAux_inv (M : Mat) (rt : Bool) :
    ∀ (fuel : ℕ) (b : List ℕ),
      List.Perm (twoOptAux M rt fuel b) b
      ∧ (twoOptAux M rt fuel b).head? = b.head?
      ∧ (twoOptAux M rt fuel b).getLast? = b.getLast? := by
  intro fuel
  induction fuel with
  | zero => intro b; exact ⟨List.Perm.refl _, rfl, rfl⟩
  | succ f ih =>
    intro b
    have hdef : twoOptAux M rt (f + 1) b
        = if (twoOptPass M rt b).2 then twoOptAux M rt f (twoOptPass M rt b).1
          else (twoOptPass M rt b).1 := rfl
    have hp := twoOptPass_inv M rt b
    by_cases h2 : (twoOptPass M rt b).2
    · rw [hdef, if_pos h2]
      obtain ⟨hperm, hh, hl⟩ := ih (twoOptPass M rt b).1
      exact ⟨hperm.trans hp.1, hh.trans hp.2.1, hl.trans hp.2.2⟩
    · rw [hdef, if_neg h2]
      exact hp

/-- C8: for every (nonempty) square cost matrix, the nearest-neighbor order
from index 0 begins with 0 and visits every index exactly once, and 2-opt
refinement preserves both properties, for both roundtrip and one-way
tours and every iteration cap. -/
theorem tour_starts_at_zero_visits_once (M : Mat) (rt : Bool) (it n : ℕ)
    (h : 0 < n) :
    (nearest_neighbor M n 0).head? = some 0
    ∧ List.Perm (nearest_neighbor M n 0) (List.range n)
    ∧ (two_opt (nearest_neighbor M n 0) M rt it).head? = some 0
    ∧ List.Perm (two_opt (nearest_neighbor M n 0) M rt it) (List.range n) := by
  obtain ⟨hh, hp⟩ := nearest_neighbor_head_perm M n h
  have ht := twoOptAux_inv M rt it (nearest_neighbor M n 0)
  exact ⟨hh, hp, ht.2.1.trans hh, ht.1.trans hp⟩

theorem tour_starts_at_zero_visits_once_witness :
    (nearest_neighbor Mc2 2 0).head? = some 0
    ∧ List.Perm (nearest_neighbor Mc2 2 0) (List.range 2)
    ∧ (two_opt (nearest_neighbor Mc2 2 0) Mc2 false 5).head? = some 0
    ∧ List.Perm (two_opt (nearest_neighbor Mc2 2 0) Mc2 false 5)
        (List.range 2) :=
  tour_starts_at_zero_visits_once Mc2 false 5 2 (by decide)

/-- C4, claim as stated is false: on the asymmetric matrix `M4`, 2-opt
accepts the boundary-edge exchange at `(i, j) = (1, 3)` (boundary cost 7
vs 11) but the reversal routes the tour over the reversed interior edge
`2 -> 1` of cost 100, raising the total tour cost from 12 to 107. -/
theorem two_opt_cost_increases_on_asymmetric :
    nearest_neighbor M4 4 0 = [0, 1, 2, 3]
    ∧ two_opt (nearest_neighbor M4 4 0) M4 false 1200 = [0, 2, 1, 3]
    ∧ path_cost (nearest_neighbor M4 4 0) M4 false = FVal.fin 12
    ∧ path_cost (two_opt (nearest_neighbor M4 4 0) M4 false 1200) M4 false
        = FVal.fin 107
    ∧ FVal.ble
        (path_cost (two_opt (nearest_neighbor M4 4 0) M4 false 1200) M4 false)
        (path_cost (nearest_neighbor M4 4 0) M4 false) = false := by
  refine ⟨by decide, by decide, by decide, by decide, by decide⟩

theorem fin_zero_add (x : FVal) : FVal.fin 0 + x = x := by
  rw [← FVal.zero_def, zero_add]

theorem chainCost_cons_cons (M : Mat) (a b : ℕ) (t : List ℕ) :
    chainCost M (a :: b :: t) = FVal.orZero (M a b) + chainCost M (b :: t) :=
  rfl

theorem chainCost_append (M : Mat) :
    ∀ (X Y : List ℕ), X ≠ [] → Y ≠ [] →
      chainCost M (X ++ Y)
        = chainCost M X
          + (FVal.orZero (M (X.getLastD 0) (Y.headD 0)) + chainCost M Y)
  | [], _, hX, _ => absurd rfl hX
  | [a], Y, _, hY => by
    cases Y with
    | nil => exact absurd rfl hY
    | cons y ys =>
      show FVal.orZero (M a y) + chainCost M (y :: ys)
          = FVal.fin 0 + (FVal.orZero (M a y) + chainCost M (y :: ys))
      rw [fin_zero_add]
  | a :: b :: t, Y, _, hY => by
    have ih := chainCost_append M (b :: t) Y (by simp) hY
    have hlast : ((a :: b :: t) : List ℕ).getLastD 0
        = ((b :: t) : List ℕ).getLastD 0 := by
      rw [List.getLastD_eq_getLast?, List.getLastD_eq_getLast?,
        List.getLast?_cons_cons]
    calc chainCost M ((a :: b :: t) ++ Y)
        = FVal.orZero (M a b) + chainCost M ((b :: t) ++ Y) := rfl
      _ = FVal.orZero (M a b) + (chainCost M (b :: t)
            + (FVal.orZero (M (((b :: t) : List ℕ).getLastD 0) (Y.headD 0))
              + chainCost M Y)) := by rw [ih]
      _ = (FVal.orZero (M a b) + chainCost M (b :: t))
            + (FVal.orZero (M (((b :: t) : List ℕ).getLastD 0) (Y.headD 0))
              + chainCost M Y) := by rw [add_assoc]
      _ = chainCost M (a :: b :: t)
            + (FVal.orZero (M (((a :: b :: t) : List ℕ).getLastD 0)
                (Y.headD 0)) + chainCost M Y) := by
          rw [hlast, chainCost_cons_cons]

theorem chainCost_reverse (M : Mat) (hs : SymMat M) :
    ∀ l : List ℕ, chainCost M l.reverse = chainCost M l
  | [] => rfl
  | [_] => rfl
  | a :: b :: t => by
    have ih := chainCost_reverse M hs (b :: t)
    have hrev : ((a :: b :: t) : List ℕ).reverse
        = ((b :: t) : List ℕ).reverse ++ [a] := by
      simp
    rw [hrev, chainCost_append M _ [a] (by simp) (by simp)]
    have hlast : (((b :: t) : List ℕ).reverse).getLastD 0
        = ((b :: t) : List ℕ).headD 0 := by
      rw [List.getLastD_eq_getLast?, List.getLast?_reverse,
        List.headD_eq_head?]
    rw [ih, hlast]
    show chainCost M (b :: t)
        + (FVal.orZero (M b a) + FVal.fin 0)
      = FVal.orZero (M a b) + chainCost M (b :: t)
    rw [add_fin_zero, hs b a, add_comm]

theorem FVal.rearrange (x s y t : FVal) :
    x + (s + (y + t)) = (x + y) + (s + t) := by
  rw [add_left_comm s y t, ← add_assoc]

theorem reverseSegment_cost_le (M : Mat) (hs : SymMat M) (rt : Bool)
    (b : List ℕ) (i j : ℕ) (hi : 1 ≤ i) (hij : i < j) (hj : j < b.length)
    (hcond : FVal.ble
        (FVal.orZero (M (b.getD (i - 1) 0) (b.getD (j - 1) 0))
          + FVal.orZero (M (b.getD i 0) (b.getD j 0)))
        (FVal.orZero (M (b.getD (i - 1) 0) (b.getD i 0))
          + FVal.orZero (M (b.getD (j - 1) 0) (b.getD j 0))) = true) :
    FVal.ble (path_cost (reverseSegment b i j) M rt) (path_cost b M rt)
      = true := by
  have hAne : b.take i ≠ [] := by
    intro hc
    have hl : (b.take i).length = i := by
      rw [List.length_take]
      omega
    rw [hc] at hl
    simp at hl
    omega
  have hSlen : ((b.drop i).take (j - i)).length = j - i := by
    rw [List.length_take, List.length_drop]
    omega
  have hSne : (b.drop i).take (j - i) ≠ [] := by
    intro hc
    rw [hc] at hSlen
    simp at hSlen
    omega
  have hBne : b.drop j ≠ [] := by
    intro hc
    have hl := List.length_drop j b
    rw [hc] at hl
    simp at hl
    omega
  have hsplit : b = b.take i ++ ((b.drop i).take (j - i) ++ b.drop j) := by
    have h2 : (b.drop i).drop (j - i) = b.drop j := by
      rw [List.drop_drop]
      congr 1
      omega
    conv_lhs => rw [← List.take_append_drop i b]
    congr 1
    rw [← h2, List.take_append_drop]
  have hA_last : (b.take i).getLastD 0 = b.getD (i - 1) 0 := by
    rw [List.getLastD_eq_getLast?, List.getLast?_eq_getElem?,
      List.length_take, List.getD_eq_getElem?_getD]
    have hmin : min i b.length - 1 = i - 1 := by omega
    rw [hmin, List.getElem?_take, if_pos (by omega : i - 1 < i)]
  have hS_head : ((b.drop i).take (j - i)).headD 0 = b.getD i 0 := by
    rw [List.headD_eq_head?, List.head?_eq_getElem?,
      List.getElem?_take, if_pos (by omega : 0 < j - i),
      List.getElem?_drop, List.getD_eq_getElem?_getD]
    norm_num
  have hS_last : ((b.drop i).take (j - i)).getLastD 0 = b.getD (j - 1) 0 := by
    rw [List.getLastD_eq_getLast?, List.getLast?_eq_getElem?, hSlen,
      List.getElem?_take, if_pos (by omega : j - i - 1 < j - i),
      List.getElem?_drop, List.getD_eq_getElem?_getD]
    have harg : i + (j - i - 1) = j - 1 := by omega
    rw [harg]
  have hB_head : (b.drop j).headD 0 = b.getD j 0 := by
    rw [List.headD_eq_head?, List.head?_drop, List.getD_eq_getElem?_getD]
  have hrev_head : (((b.drop i).take (j - i)).reverse).headD 0
      = b.getD (j - 1) 0 := by
    rw [List.headD_eq_head?, List.head?_reverse,
      ← List.getLastD_eq_getLast?, hS_last]
  have hrev_last : (((b.drop i).take (j - i)).reverse).getLastD 0
      = b.getD i 0 := by
    rw [List.getLastD_eq_getLast?, List.getLast?_reverse,
      ← List.headD_eq_head?, hS_head]
  have hSB_head : (((b.drop i).take (j - i)) ++ b.drop j).headD 0
      = b.getD i 0 := by
    rw [List.headD_eq_head?, List.head?_append_of_ne_nil _ hSne,
      ← List.headD_eq_head?, hS_head]
  have hRB_head : ((((b.drop i).take (j - i)).reverse) ++ b.drop j).headD 0
      = b.getD (j - 1) 0 := by
    rw [List.headD_eq_head?, List.head?_append_of_ne_nil _ (by simp [hSne]),
      ← List.headD_eq_head?, hrev_head]
  have hchain_b : chainCost M b
      = chainCost M (b.take i)
        + (FVal.orZero (M (b.getD (i - 1) 0) (b.getD i 0))
          + (chainCost M ((b.drop i).take (j - i))
            + (FVal.orZero (M (b.getD (j - 1) 0) (b.getD j 0))
              + chainCost M (b.drop j)))) := by
    conv_lhs => rw [hsplit]
    rw [chainCost_append M (b.take i) _ hAne (by simp [hSne]),
      chainCost_append M ((b.drop i).take (j - i)) (b.drop j) hSne hBne,
      hA_last, hSB_head, hS_last, hB_head]
  have hchain_r : chainCost M (reverseSegment b i j)
      = chainCost M (b.take i)
        + (FVal.orZero (M (b.getD (i - 1) 0) (b.getD (j - 1) 0))
          + (chainCost M ((b.drop i).take (j - i))
            + (FVal.orZero (M (b.getD i 0) (b.getD j 0))
              + chainCost M (b.drop j)))) := by
    unfold reverseSegment
    rw [List.append_assoc]
    rw [chainCost_append M (b.take i) _ hAne (by simp [hSne]),
      chainCost_append M (((b.drop i).take (j - i)).reverse) (b.drop j)
        (by simp [hSne]) hBne,
      hA_last, hRB_head, hrev_last, hB_head,
      chainCost_reverse M hs ((b.drop i).take (j - i))]
  have hchain_le : FVal.ble (chainCost M (reverseSegment b i j))
      (chainCost M b) = true := by
    rw [hchain_b, hchain_r]
    rw [FVal.rearrange (FVal.orZero (M (b.getD (i - 1) 0) (b.getD (j - 1) 0)))
        (chainCost M ((b.drop i).take (j - i)))
        (FVal.orZero (M (b.getD i 0) (b.getD j 0))) (chainCost M (b.drop j)),
      FVal.rearrange (FVal.orZero (M (b.getD (i - 1) 0) (b.getD i 0)))
        (chainCost M ((b.drop i).take (j - i)))
        (FVal.orZero (M (b.getD (j - 1) 0) (b.getD j 0)))
        (chainCost M (b.drop j))]
    exact FVal.ble_add_left _ (FVal.ble_add_right _ hcond)
  have hperm := reverseSegment_perm b i j (le_of_lt hij)
  have hlen : (reverseSegment b i j).length = b.length := hperm.length_eq
  have hhead : (reverseSegment b i j).headD 0 = b.headD 0 := by
    rw [List.headD_eq_head?, List.headD_eq_head?,
      reverseSegment_head b i j hi]
  have hlast : (reverseSegment b i j).getLastD 0 = b.getLastD 0 := by
    rw [List.getLastD_eq_getLast?, List.getLastD_eq_getLast?,
      reverseSegment_getLast b i j hj]
  unfold path_cost
  rw [hlen, hhead, hlast]
  exact FVal.ble_add_right _ hchain_le

theorem twoOptStep_swap_cases (M : Mat) (st : List ℕ × Bool) (q : ℕ × ℕ) :
    (twoOptStep M st q = (reverseSegment st.1 q.1 q.2, true)
      ∧ FVal.blt
          ((FVal.orZero (M (st.1.getD (q.1 - 1) 0) (st.1.getD (q.2 - 1) 0))
            + FVal.orZero (M (st.1.getD q.1 0)
                (st.1.getD (q.2 % st.1.length) 0))) + FVal.fin eps)
          (FVal.orZero (M (st.1.getD (q.1 - 1) 0) (st.1.getD q.1 0))
            + FVal.orZero (M (st.1.getD (q.2 - 1) 0)
                (st.1.getD (q.2 % st.1.length) 0))) = true)
    ∨ twoOptStep M st q = st := by
  simp only [twoOptStep]
  split
  · next h => exact Or.inl ⟨rfl, h⟩
  · exact Or.inr rfl

theorem twoOptFold_cost (M : Mat) (hs : SymMat M) (rt : Bool) (L : ℕ) :
    ∀ (ps : List (ℕ × ℕ)) (b : List ℕ) (fl : Bool),
      (∀ q ∈ ps, 1 ≤ q.1 ∧ q.1 < q.2 ∧ q.2 < L) → b.length = L →
      FVal.ble (path_cost (ps.foldl (twoOptStep M) (b, fl)).1 M rt)
        (path_cost b M rt) = true := by
  intro ps
  induction ps with
  | nil => intro b fl _ _; exact FVal.ble_refl _
  | cons q qs ih =>
    intro b fl hq hlen
    have hqb := hq q (List.mem_cons_self q qs)
    have hfold : (q :: qs).foldl (twoOptStep M) (b, fl)
        = qs.foldl (twoOptStep M) (twoOptStep M (b, fl) q) := rfl
    rw [hfold]
    rcases twoOptStep_swap_cases M (b, fl) q with ⟨hst, hcnd⟩ | hst
    · rw [hst]
      dsimp only at hcnd hst
      have hj : q.2 < b.length := by rw [hlen]; exact hqb.2.2
      have hmod : q.2 % b.length = q.2 := Nat.mod_eq_of_lt hj
      rw [hmod] at hcnd
      have heps : (0 : ℚ) ≤ eps := by norm_num [eps]
      have hble : FVal.ble
          (FVal.orZero (M (b.getD (q.1 - 1) 0) (b.getD (q.2 - 1) 0))
            + FVal.orZero (M (b.getD q.1 0) (b.getD q.2 0)))
          (FVal.orZero (M (b.getD (q.1 - 1) 0) (b.getD q.1 0))
            + FVal.orZero (M (b.getD (q.2 - 1) 0) (b.getD q.2 0))) = true :=
        FVal.ble_trans (FVal.ble_add_fin_nonneg heps) (FVal.blt_ble hcnd)
      have hstep := reverseSegment_cost_le M hs rt b q.1 q.2
        hqb.1 hqb.2.1 hj hble
      have hperm := reverseSegment_perm b q.1 q.2 (le_of_lt hqb.2.1)
      have hlen2 : (reverseSegment b q.1 q.2).length = L := by
        rw [hperm.length_eq, hlen]
      have hrest := ih (reverseSegment b q.1 q.2) true
        (fun p hp => hq p (List.mem_cons_of_mem q hp)) hlen2
      exact FVal.ble_trans hrest hstep
    · rw [hst]
      exact ih b fl (fun p hp => hq p (List.mem_cons_of_mem q hp)) hlen

theorem twoOptPass_cost (M : Mat) (hs : SymMat M) (rt : Bool) (b : List ℕ) :
    FVal.ble (path_cost (twoOptPass M rt b).1 M rt) (path_cost b M rt)
      = true := by
  unfold twoOptPass
  exact twoOptFold_cost M hs rt b.length (pairsFor b.length rt) b false
    (fun q hq => pairsFor_bounds b.length rt hq) rfl

theorem twoOptAux_cost (M : Mat) (hs : SymMat M) (rt : Bool) :
    ∀ (fuel : ℕ) (b : List ℕ),
      FVal.ble (path_cost (twoOptAux M rt fuel b) M rt) (path_cost b M rt)
        = true := by
  intro fuel
  induction fuel with
  | zero => intro b; exact FVal.ble_refl _
  | succ f ih =>
    intro b
    have hdef : twoOptAux M rt (f + 1) b
        = if (twoOptPass M rt b).2 then twoOptAux M rt f (twoOptPass M rt b).1
          else (twoOptPass M rt b).1 := rfl
    by_cases h2 : (twoOptPass M rt b).2
    · rw [hdef, if_pos h2]
      exact FVal.ble_trans (ih (twoOptPass M rt b).1)
        (twoOptPass_cost M hs rt b)
    · rw [hdef, if_neg h2]
      exact twoOptPass_cost M hs rt b

/-- C4 (amended): for a SYMMETRIC cost matrix (symmetric through the
`or 0` reading of cells, which is how 2-opt prices edges), the tour cost of
the 2-opt refined order never exceeds that of the nearest-neighbor order it
starts from, for both roundtrip and one-way tours and any iteration cap.
For asymmetric matrices the claim is refuted: segment reversal reprices
interior edges, which the boundary-only acceptance test ignores. -/
theorem two_opt_cost_nonincreasing_symmetric (M : Mat) (hs : SymMat M)
    (n s : ℕ) (rt : Bool) (it : ℕ) :
    FVal.ble (path_cost (two_opt (nearest_neighbor M n s) M rt it) M rt)
      (path_cost (nearest_neighbor M n s) M rt) = true :=
  twoOptAux_cost M hs rt it (nearest_neighbor M n s)

theorem two_opt_cost_nonincreasing_symmetric_witness :
    FVal.ble
      (path_cost (two_opt (nearest_neighbor MsymW 3 0) MsymW false 7)
        MsymW false)
      (path_cost (nearest_neighbor MsymW 3 0) MsymW false) = true :=
  two_opt_cost_nonincreasing_symmetric MsymW
    (by
      intro i j
      simp only [MsymW]
      rw [Nat.min_comm i j, Nat.max_comm i j])
    3 0 false 7

theorem feasGo_inv (M : Mat) (rt : Bool) (pace bud : ℚ) (N : ℕ) :
    ∀ (rem n : ℕ) (st : ℕ × Option (List ℕ) × FVal),
      (st.1 ≠ 0 → FVal.ble st.2.2 (.fin bud) = true
        ∧ st.2.2 = sizeEstimate M rt pace st.1 ∧ st.1 ≤ N) →
      n + rem ≤ N + 1 →
      (feasGo M rt pace bud n rem st).1 ≠ 0 →
      FVal.ble (feasGo M rt pace bud n rem st).2.2 (.fin bud) = true
        ∧ (feasGo M rt pace bud n rem st).2.2
            = sizeEstimate M rt pace (feasGo M rt pace bud n rem st).1
        ∧ (feasGo M rt pace bud n rem st).1 ≤ N := by
  intro rem
  induction rem with
  | zero =>
    intro n st hst _
    have hdef : feasGo M rt pace bud n 0 st = st := rfl
    rw [hdef]
    exact hst
  | succ r ih =>
    intro n st hst hle
    have hdef : feasGo M rt pace bud n (r + 1) st
        = if FVal.ble (sizeEstimate M rt pace n) (.fin bud) = true
          then feasGo M rt pace bud (n + 1) r
            (n, some (two_opt (nearest_neighbor M (n + 1) 0) M rt 1200),
              sizeEstimate M rt pace n)
          else st := rfl
    rw [hdef]
    by_cases hb : FVal.ble (sizeEstimate M rt pace n) (.fin bud) = true
    · rw [if_pos hb]
      apply ih (n + 1) _ _ (by omega)
      intro _
      exact ⟨hb, rfl, by omega⟩
    · rw [if_neg hb]
      exact hst

theorem plan_nil_reason (hav : ℚ → ℚ → ℚ → ℚ → ℚ) (ms : List Row)
    (d : ℕ → ℕ → Option ℚ) (ulat ulon bh : ℚ) (rt : Bool) (pace : ℚ)
    (mp : Option ℕ) (pin : ℚ) :
    plan_route_under_budget hav ms [] d ulat ulon bh rt pace mp pin
      = .noCandidates ms := by
  unfold plan_route_under_budget
  rw [if_pos rfl]

theorem plan_spec (hav : ℚ → ℚ → ℚ → ℚ → ℚ) (ms rows : List Row)
    (d : ℕ → ℕ → Option ℚ) (ulat ulon bh : ℚ) (rt : Bool) (pace : ℚ)
    (mp : Option ℕ) (pin : ℚ) (hrows : rows ≠ []) :
    plan_route_under_budget hav ms rows d ulat ulon bh rt pace mp pin
      = (if (feasGo (convMat d) rt pace (bh * 60) 1
            (planRows hav ms rows ulat ulon pin mp).length
            (0, none, FVal.inf)).1 = 0
        then .budgetTooSmall
          (feasGo (convMat d) rt pace (bh * 60) 1
            (planRows hav ms rows ulat ulon pin mp).length
            (0, none, FVal.inf)).2.2 ms
        else planOk ms (planRows hav ms rows ulat ulon pin mp) bh
          (feasGo (convMat d) rt pace (bh * 60) 1
            (planRows hav ms rows ulat ulon pin mp).length
            (0, none, FVal.inf))) := by
  unfold plan_route_under_budget
  rw [if_neg hrows]

theorem planOk_est (ms r2 : List Row) (bh : ℚ)
    (res : ℕ × Option (List ℕ) × FVal) :
    (planOk ms r2 bh res).estimated_minutes_fast = res.2.2 := rfl

theorem planOk_roles (ms r2 : List Row) (bh : ℚ)
    (res : ℕ × Option (List ℕ) × FVal) :
    (planOk ms r2 bh res).node_roles
      = "start" :: (r2.take res.1).map
          (fun r => if keyOf r ∈ make_stable_keys ms
            then "main" else "additional") := rfl

theorem planOk_selected (ms r2 : List Row) (bh : ℚ)
    (res : ℕ × Option (List ℕ) × FVal) :
    (planOk ms r2 bh res).selected_poi = r2.take res.1 := rfl

/-- C1: whenever the planner returns reason `ok_under_budget`, the
estimated minutes attached to the result (`estimated_minutes_fast`, the
time of the best feasible candidate-set size found by the feasibility
search, which stops at the first infeasible size) are at most
`time_budget_hours * 60`. -/
theorem plan_ok_le_budget (hav : ℚ → ℚ → ℚ → ℚ → ℚ) (ms rows : List Row)
    (d : ℕ → ℕ → Option ℚ) (ulat ulon bh : ℚ) (rt : Bool) (pace : ℚ)
    (mp : Option ℕ) (pin : ℚ)
    (h : (plan_route_under_budget hav ms rows d ulat ulon bh rt pace mp
        pin).reason = "ok_under_budget") :
    FVal.ble (plan_route_under_budget hav ms rows d ulat ulon bh rt pace mp
        pin).estimated_minutes_fast (.fin (bh * 60)) = true := by
  by_cases hrows : rows = []
  · rw [hrows, plan_nil_reason] at h
    simp [PlanOut.reason] at h
  · rw [plan_spec hav ms rows d ulat ulon bh rt pace mp pin hrows] at h ⊢
    by_cases hz : (feasGo (convMat d) rt pace (bh * 60) 1
        (planRows hav ms rows ulat ulon pin mp).length
        (0, none, FVal.inf)).1 = 0
    · rw [if_pos hz] at h
      simp [PlanOut.reason] at h
    · rw [if_neg hz] at h ⊢
      rw [planOk_est]
      have hinv := feasGo_inv (convMat d) rt pace (bh * 60)
        (planRows hav ms rows ulat ulon pin mp).length
        (planRows hav ms rows ulat ulon pin mp).length 1
        (0, none, FVal.inf) (fun h0 => absurd rfl h0) (by omega)
      exact (hinv hz).1

theorem plan_ok_le_budget_witness :
    (plan_route_under_budget hav0 [] [rowA] dur60 0 0 1 false 1 none
        8).reason = "ok_under_budget"
    ∧ FVal.ble (plan_route_under_budget hav0 [] [rowA] dur60 0 0 1 false 1
        none 8).estimated_minutes_fast (.fin (1 * 60)) = true :=
  ⟨by decide, plan_ok_le_budget hav0 [] [rowA] dur60 0 0 1 false 1 none 8
    (by decide)⟩

/-- C2: the code violates the claim.  With a single candidate 600 seconds
away (10 walking minutes) and a 3-minute budget (0.05 h), the planner
returns reason `time_budget_too_small`, but the attached
`estimated_minutes` is the initial sentinel `inf` — not the minimal
observed estimate of 10 minutes computed for n = 1 that the spec promises
to surface. -/
theorem budget_too_small_returns_inf :
    (plan_route_under_budget hav0 [] [rowA] dur600 0 0 (1 / 20) false 1
        none 8).reason = "time_budget_too_small"
    ∧ (plan_route_under_budget hav0 [] [rowA] dur600 0 0 (1 / 20) false 1
        none 8).estimated_minutes = FVal.inf
    ∧ sizeEstimate (convMat dur600) false 1 1 = FVal.fin 10
    ∧ FVal.inf ≠ FVal.fin 10 := by
  refine ⟨by decide, by decide, by decide, by decide⟩

/-- C5 (amended): in an `ok_under_budget` result the start node has role
`start`, and each selected candidate's returned role is `main` exactly when
its stable key occurs among the semantic-shortlist keys (not by rank
position); the attached estimate is the feasibility-loop estimate for the
selected size, which does use the positional dwell list
`[0] + [15]*min(5,n) + [3]*(n - min(5,n))`. -/
theorem plan_node_roles_semantic (hav : ℚ → ℚ → ℚ → ℚ → ℚ)
    (ms rows : List Row) (d : ℕ → ℕ → Option ℚ) (ulat ulon bh : ℚ)
    (rt : Bool) (pace : ℚ) (mp : Option ℕ) (pin : ℚ)
    (h : (plan_route_under_budget hav ms rows d ulat ulon bh rt pace mp
        pin).reason = "ok_under_budget") :
    (plan_route_under_budget hav ms rows d ulat ulon bh rt pace mp
        pin).node_roles
      = "start" :: ((plan_route_under_budget hav ms rows d ulat ulon bh rt
          pace mp pin).selected_poi).map
          (fun r => if keyOf r ∈ make_stable_keys ms
            then "main" else "additional")
    ∧ (plan_route_under_budget hav ms rows d ulat ulon bh rt pace mp
        pin).estimated_minutes_fast
      = sizeEstimate (convMat d) rt pace
          ((plan_route_under_budget hav ms rows d ulat ulon bh rt pace mp
            pin).selected_poi).length := by
  by_cases hrows : rows = []
  · rw [hrows, plan_nil_reason] at h
    simp [PlanOut.reason] at h
  · rw [plan_spec hav ms rows d ulat ulon bh rt pace mp pin hrows] at h ⊢
    by_cases hz : (feasGo (convMat d) rt pace (bh * 60) 1
        (planRows hav ms rows ulat ulon pin mp).length
        (0, none, FVal.inf)).1 = 0
    · rw [if_pos hz] at h
      simp [PlanOut.reason] at h
    · rw [if_neg hz] at h ⊢
      have hinv := feasGo_inv (convMat d) rt pace (bh * 60)
        (planRows hav ms rows ulat ulon pin mp).length
        (planRows hav ms rows ulat ulon pin mp).length 1
        (0, none, FVal.inf) (fun h0 => absurd rfl h0) (by omega)
      have htake : ((planRows hav ms rows ulat ulon pin mp).take
          (feasGo (convMat d) rt pace (bh * 60) 1
            (planRows hav ms rows ulat ulon pin mp).length
            (0, none, FVal.inf)).1).length
          = (feasGo (convMat d) rt pace (bh * 60) 1
            (planRows hav ms rows ulat ulon pin mp).length
            (0, none, FVal.inf)).1 := by
        rw [List.length_take]
        have := (hinv hz).2.2
        omega
      refine ⟨planOk_roles ms _ bh _, ?_⟩
      rw [planOk_est, planOk_selected, htake]
      exact (hinv hz).2.1

/-- C5, claim as stated is false: with semantic shortlist `[rowM99]`
(whose stable key matches no blended-list row) and one selected candidate
`rowA`, the planner returns node_roles `["start", "additional"]`, not the
positional assignment `["start", "main"]` the claim requires for n = 1. -/
theorem node_roles_not_positional :
    (plan_route_under_budget hav0 [rowM99] [rowA] dur60 0 0 1 false 1 none
        8).node_roles = ["start", "additional"]
    ∧ (["start", "additional"] : List String) ≠ posRoles 1 := by
  refine ⟨by decide, by decide⟩

theorem plan_node_roles_semantic_witness :
    (plan_route_under_budget hav0 [rowM99] [rowA] dur60 0 0 1 false 1 none
        8).reason = "ok_under_budget"
    ∧ ((plan_route_under_budget hav0 [rowM99] [rowA] dur60 0 0 1 false 1
          none 8).node_roles
        = "start" :: ((plan_route_under_budget hav0 [rowM99] [rowA] dur60 0
            0 1 false 1 none 8).selected_poi).map
            (fun r => if keyOf r ∈ make_stable_keys [rowM99]
              then "main" else "additional")
      ∧ (plan_route_under_budget hav0 [rowM99] [rowA] dur60 0 0 1 false 1
          none 8).estimated_minutes_fast
        = sizeEstimate (convMat dur60) false 1
            ((plan_route_under_budget hav0 [rowM99] [rowA] dur60 0 0 1
              false 1 none 8).selected_poi).length) :=
  ⟨by decide, plan_node_roles_semantic hav0 [rowM99] [rowA] dur60 0 0 1
    false 1 none 8 (by decide)⟩

theorem haversine_nonneg (lat1 lon1 lat2 lon2 : ℝ) :
    0 ≤ _haversine_km lat1 lon1 lat2 lon2 := by
  unfold _haversine_km
  have harc : 0 ≤ Real.arcsin (Real.sqrt
      (Real.sin ((lat2 - lat1) * Real.pi / 180 / 2) ^ 2 +
        Real.cos (lat1 * Real.pi / 180) * Real.cos (lat2 * Real.pi / 180) *
          Real.sin ((lon2 - lon1) * Real.pi / 180 / 2) ^ 2)) :=
    Real.arcsin_nonneg.mpr (Real.sqrt_nonneg _)
  have hR : (0 : ℝ) ≤ 2 * 6371.0088 := by norm_num
  exact mul_nonneg hR harc

theorem sem01_mem (c : ℝ) : 0 ≤ sem01 c ∧ sem01 c ≤ 1 := by
  unfold sem01
  dsimp only
  split_ifs <;> constructor <;> linarith

theorem geo_score_mem (d τ : ℝ) (hd : 0 ≤ d) :
    0 < geo_score d τ 0 ∧ geo_score d τ 0 ≤ 1 := by
  unfold geo_score
  rw [if_neg (by norm_num)]
  constructor
  · exact Real.exp_pos _
  · have hden : (0 : ℝ) < max τ (1 / 1000000) :=
      lt_of_lt_of_le (by norm_num) (le_max_right τ (1 / 1000000))
    have harg : -d / max τ (1 / 1000000) ≤ 0 :=
      div_nonpos_of_nonpos_of_nonneg (neg_nonpos.mpr hd) (le_of_lt hden)
    calc Real.exp (-d / max τ (1 / 1000000)) ≤ Real.exp 0 :=
          Real.exp_le_exp.mpr harg
      _ = 1 := Real.exp_zero

/-- C9: for every candidate the reranker scores (clamped semantic score,
geographic score `exp(-d/max(geoTau, 1e-6))` at the haversine distance,
with the default zero minimum weight), and every `alpha` in `[0, 1]`, the
blended score equals `alpha * semantic01 + (1 - alpha) * geo_score` and
lies in `[0, 1]`. -/
theorem blended_score_formula_and_range (c ulat ulon lat lon τ α : ℝ)
    (h0 : 0 ≤ α) (h1 : α ≤ 1) :
    final_score α (sem01 c)
        (geo_score (_haversine_km ulat ulon lat lon) τ 0)
      = α * sem01 c
        + (1 - α) * geo_score (_haversine_km ulat ulon lat lon) τ 0
    ∧ 0 ≤ final_score α (sem01 c)
        (geo_score (_haversine_km ulat ulon lat lon) τ 0)
    ∧ final_score α (sem01 c)
        (geo_score (_haversine_km ulat ulon lat lon) τ 0) ≤ 1 := by
  obtain ⟨hs0, hs1⟩ := sem01_mem c
  obtain ⟨hg0, hg1⟩ := geo_score_mem (_haversine_km ulat ulon lat lon) τ
    (haversine_nonneg ulat ulon lat lon)
  refine ⟨rfl, ?_, ?_⟩
  · unfold final_score
    have := mul_nonneg h0 hs0
    have := mul_nonneg (by linarith : (0 : ℝ) ≤ 1 - α) (le_of_lt hg0)
    linarith
  · unfold final_score
    nlinarith

theorem blended_score_witness :
    final_score 0 (sem01 1)
        (geo_score (_haversine_km 0 0 0 0) (12 / 10) 0)
      = 0 * sem01 1
        + (1 - 0) * geo_score (_haversine_km 0 0 0 0) (12 / 10) 0
    ∧ 0 ≤ final_score 0 (sem01 1)
        (geo_score (_haversine_km 0 0 0 0) (12 / 10) 0)
    ∧ final_score 0 (sem01 1)
        (geo_score (_haversine_km 0 0 0 0) (12 / 10) 0) ≤ 1 :=
  blended_score_formula_and_range 1 0 0 0 0 (12 / 10) 0 (le_refl 0)
    zero_le_one
